import Mathlib

/-!
Shallow embedding of the sparse binary merkle tree utilities in
eth2/_utils/merkle/sparse.py: building a fixed-depth (32-level) tree from a
list of leaf digests, padding odd layers with precomputed empty-subtree
hashes, and verifying inclusion proofs against the root.

Byte strings are lists of natural numbers; the external hash function
hash_eth2 is a parameter of every definition. Fallible operations return
Except MerkleError.
-/

namespace MerkleSparse

/-- A byte string, modelled as a list of byte values. -/
abbrev Bytes := List Nat

/-- Errors raised by the merkle utilities: building from an empty input, and
verifying with a proof whose length is not TreeDepth. -/
inductive MerkleError where
  | EmptyInputError
  | InvalidProofLengthError
deriving DecidableEq

section Defs

variable (hash_eth2 : Bytes → Bytes)

/-- TreeDepth = 32, from sparse.py. -/
def TreeDepth : Nat := 32

/-- Modelled from the spec: the parent-hash helper consumed from the common
module (not under src); parent = H(left concatenated with right). -/
def _calc_parent_hash (left right : Bytes) : Bytes :=
  hash_eth2 (left ++ right)

/-- Modelled from the spec: the layer-hashing helper consumed from the common
module (not under src); hashes adjacent pairs left-to-right. -/
def _hash_layer : List Bytes → List Bytes
  | left :: right :: rest => _calc_parent_hash hash_eth2 left right :: _hash_layer rest
  | _ => []

/-- Modelled from the spec: the i-th iterate of doubling-and-hashing starting
from 32 zero bytes, as produced by iterate in the EmptyNodeHashes assignment. -/
def emptyNodeHash : Nat → Bytes
  | 0 => List.replicate 32 0
  | i + 1 => hash_eth2 (emptyNodeHash i ++ emptyNodeHash i)

/-- EmptyNodeHashes from sparse.py: the first TreeDepth iterates of
node_hash maps to hash_eth2(node_hash + node_hash), seeded with 32 zero
bytes. -/
def EmptyNodeHashes : List Bytes :=
  (List.range TreeDepth).map (emptyNodeHash hash_eth2)

/-- The loop body of verify_merkle_proof in sparse.py: starting from the leaf,
for i in range(TreeDepth), combine with proof[i] on the side selected by
index // 2^i % 2. -/
def verify_value (leaf : Bytes) (index : Nat) (proof : List Bytes) : Bytes :=
  (List.range TreeDepth).foldl
    (fun value i =>
      if index / 2 ^ i % 2 = 1 then hash_eth2 (proof.getD i [] ++ value)
      else hash_eth2 (value ++ proof.getD i []))
    leaf

/-- verify_merkle_proof from sparse.py: asserts the proof has length
TreeDepth, then recomputes the root from the leaf and compares. -/
def verify_merkle_proof (root leaf : Bytes) (index : Nat) (proof : List Bytes) :
    Except MerkleError Bool :=
  if proof.length = TreeDepth then
    .ok (decide (verify_value hash_eth2 leaf index proof = root))
  else
    .error .InvalidProofLengthError

/-- Modelled from the spec: the immutable replace-one-element sequence
utility consumed from eth2/_utils/tuple (not under src). -/
def update_tuple_item (xs : List α) (i : Nat) (x : α) : List α :=
  xs.set i x

/-- One iteration of the loop in calc_merkle_tree_from_leaves: if the current
top layer has odd length, replace it by itself with EmptyNodeHashes[i]
appended, then prepend the hash of the top layer. -/
def buildStep (tree : List (List Bytes)) (i : Nat) : List (List Bytes) :=
  let padded :=
    if (tree.headD []).length % 2 = 1 then
      update_tuple_item tree 0 (tree.headD [] ++ [(EmptyNodeHashes hash_eth2).getD i []])
    else tree
  _hash_layer hash_eth2 (padded.headD []) :: padded

/-- The tree produced by the loop of calc_merkle_tree_from_leaves: start from
the single-layer tree (leaves) and run buildStep for i in range(TreeDepth). -/
def build_tree (leaves : List Bytes) : List (List Bytes) :=
  (List.range TreeDepth).foldl (buildStep hash_eth2) [leaves]

/-- calc_merkle_tree_from_leaves from sparse.py: raises on an empty leaf
sequence, otherwise returns the full layered tree. -/
def calc_merkle_tree_from_leaves (leaves : List Bytes) :
    Except MerkleError (List (List Bytes)) :=
  if leaves.length = 0 then .error .EmptyInputError
  else .ok (build_tree hash_eth2 leaves)

/-- calc_merkle_tree from sparse.py: hash every item to a leaf digest, then
delegate to calc_merkle_tree_from_leaves. -/
def calc_merkle_tree (items : List Bytes) : Except MerkleError (List (List Bytes)) :=
  calc_merkle_tree_from_leaves hash_eth2 (items.map hash_eth2)

/-- Modelled from the spec: get_root, consumed from the common module (not
under src); returns layer 0's sole digest, tree[0][0]. -/
def get_root (tree : List (List Bytes)) : Bytes :=
  (tree.getD 0 []).getD 0 []

/-- get_merkle_root from sparse.py: the root of the tree built from the given
leaves. -/
def get_merkle_root (leaves : List Bytes) : Except MerkleError Bytes :=
  (calc_merkle_tree_from_leaves hash_eth2 leaves).map get_root

/-- padLayer i L: L padded with EmptyNodeHashes[i] when its length is odd;
the padding step of round i of calc_merkle_tree_from_leaves. -/
def padLayer (i : Nat) (L : List Bytes) : List Bytes :=
  if L.length % 2 = 1 then L ++ [(EmptyNodeHashes hash_eth2).getD i []] else L

/-- topLayer leaves i: the working layer at the start of round i of
calc_merkle_tree_from_leaves (before round i's padding). -/
def topLayer (leaves : List Bytes) : Nat → List Bytes
  | 0 => leaves
  | i + 1 => _hash_layer hash_eth2 (padLayer hash_eth2 i (topLayer leaves i))

/-- Recursive restatement of the verifier's accumulator: consume the proof
entries in order, halving the index at each step. -/
def valueAux (value : Bytes) (index : Nat) : List Bytes → Bytes
  | [] => value
  | p :: rest =>
      valueAux (if index % 2 = 1 then hash_eth2 (p ++ value) else hash_eth2 (value ++ p))
        (index / 2) rest

/-- A concrete computable stand-in for the external hash function, used only
to instantiate theorems at concrete inputs: records the length and byte sum
of the input. -/
def wHash : Bytes → Bytes :=
  fun b => [b.length % 256, b.foldl (fun a x => (a + x) % 256) 0]

end Defs

section Lemmas

variable (hash_eth2 : Bytes → Bytes)

/-- Every list is empty, a singleton, or starts with two elements. -/
theorem two_step_induction {α : Type} {P : List α → Prop} (h0 : P []) (h1 : ∀ a, P [a])
    (h2 : ∀ a b l, P l → P (a :: b :: l)) : ∀ l, P l
  | [] => h0
  | [a] => h1 a
  | a :: b :: l => h2 a b l (two_step_induction h0 h1 h2 l)

/-- Hashing a layer halves its length, rounding down. -/
theorem hash_layer_length : ∀ L : List Bytes, (_hash_layer hash_eth2 L).length = L.length / 2
  | [] => by simp [_hash_layer]
  | [a] => by simp [_hash_layer]
  | a :: b :: rest => by
      simp [_hash_layer, hash_layer_length rest]
      omega

/-- Entry j of a hashed layer is the hash of entries 2j and 2j+1 of the layer. -/
theorem hash_layer_getD : ∀ (L : List Bytes) (j : Nat), 2 * j + 1 < L.length →
    (_hash_layer hash_eth2 L).getD j [] =
      hash_eth2 (L.getD (2 * j) [] ++ L.getD (2 * j + 1) [])
  | [], j, h => by simp at h
  | [a], j, h => by simp at h
  | a :: b :: rest, 0, h => by simp [_hash_layer, _calc_parent_hash]
  | a :: b :: rest, j + 1, h => by
      have h' : 2 * j + 1 < rest.length := by simp at h; omega
      have ih := hash_layer_getD rest j h'
      have e1 : 2 * (j + 1) = 2 * j + 1 + 1 := by omega
      simp only [_hash_layer, List.getD_cons_succ, e1]
      exact ih

/-- A padded layer always has even length. -/
theorem padLayer_length_even (i : Nat) (L : List Bytes) :
    (padLayer hash_eth2 i L).length % 2 = 0 := by
  unfold padLayer
  split
  · simp
    omega
  · omega

/-- Padding keeps the length, or grows it by one. -/
theorem padLayer_length_bounds (i : Nat) (L : List Bytes) :
    L.length ≤ (padLayer hash_eth2 i L).length ∧
      (padLayer hash_eth2 i L).length ≤ L.length + 1 := by
  unfold padLayer
  split <;> simp

/-- Padding does not change entries below the original length. -/
theorem padLayer_getD (i j : Nat) (L : List Bytes) (h : j < L.length) :
    (padLayer hash_eth2 i L).getD j [] = L.getD j [] := by
  unfold padLayer
  split
  · exact List.getD_append _ _ _ _ h
  · rfl

/-- The working layer after round i+1 is the hashed padded layer of round i. -/
theorem topLayer_succ_length (leaves : List Bytes) (i : Nat) :
    (topLayer hash_eth2 leaves (i + 1)).length =
      (padLayer hash_eth2 i (topLayer hash_eth2 leaves i)).length / 2 := by
  simp [topLayer, hash_layer_length]

/-- Every working layer of a build from a non-empty leaf list is non-empty. -/
theorem topLayer_length_pos (leaves : List Bytes) (h : 1 ≤ leaves.length) :
    ∀ i, 1 ≤ (topLayer hash_eth2 leaves i).length := by
  intro i
  induction i with
  | zero => simpa [topLayer]
  | succ i ih =>
      have he := padLayer_length_even hash_eth2 i (topLayer hash_eth2 leaves i)
      have hb := padLayer_length_bounds hash_eth2 i (topLayer hash_eth2 leaves i)
      rw [topLayer_succ_length]
      omega

/-- Working-layer lengths shrink below powers of two: if the leaves fit in
2 to the power i + j, the layer after i rounds fits in 2 to the power j. -/
theorem topLayer_length_le (leaves : List Bytes) :
    ∀ i j, leaves.length ≤ 2 ^ (i + j) → (topLayer hash_eth2 leaves i).length ≤ 2 ^ j := by
  intro i
  induction i with
  | zero => intro j h; simpa [topLayer] using h
  | succ i ih =>
      intro j h
      have hij : leaves.length ≤ 2 ^ (i + (j + 1)) := by
        have : i + (j + 1) = i + 1 + j := by omega
        rw [this]; exact h
      have hle := ih (j + 1) hij
      have he := padLayer_length_even hash_eth2 i (topLayer hash_eth2 leaves i)
      have hb := padLayer_length_bounds hash_eth2 i (topLayer hash_eth2 leaves i)
      have hp : 2 ^ (j + 1) = 2 * 2 ^ j := by ring
      rw [topLayer_succ_length]
      omega

/-- The fold of calc_merkle_tree_from_leaves after k rounds: the working layer
on top, then the padded stored layers of rounds k-1 down to 0. -/
theorem foldl_buildStep_eq (leaves : List Bytes) :
    ∀ k, (List.range k).foldl (buildStep hash_eth2) [leaves] =
      topLayer hash_eth2 leaves k ::
        (List.range k).reverse.map
          (fun i => padLayer hash_eth2 i (topLayer hash_eth2 leaves i)) := by
  intro k
  induction k with
  | zero => simp [topLayer]
  | succ k ih =>
      rw [List.range_succ, List.foldl_append, List.foldl_cons, List.foldl_nil, ih]
      have hpad : buildStep hash_eth2
          (topLayer hash_eth2 leaves k ::
            (List.range k).reverse.map
              (fun i => padLayer hash_eth2 i (topLayer hash_eth2 leaves i))) k =
          topLayer hash_eth2 leaves (k + 1) ::
            padLayer hash_eth2 k (topLayer hash_eth2 leaves k) ::
              (List.range k).reverse.map
                (fun i => padLayer hash_eth2 i (topLayer hash_eth2 leaves i)) := by
        by_cases hodd : (topLayer hash_eth2 leaves k).length % 2 = 1 <;>
          simp [buildStep, update_tuple_item, padLayer, topLayer, hodd]
      rw [hpad]
      simp

/-- The built tree, written out layer by layer. -/
theorem build_tree_eq (leaves : List Bytes) :
    build_tree hash_eth2 leaves =
      topLayer hash_eth2 leaves 32 ::
        (List.range 32).reverse.map
          (fun i => padLayer hash_eth2 i (topLayer hash_eth2 leaves i)) :=
  foldl_buildStep_eq hash_eth2 leaves 32

/-- The built tree has 33 layers. -/
theorem build_tree_length (leaves : List Bytes) :
    (build_tree hash_eth2 leaves).length = 33 := by
  rw [build_tree_eq]
  simp

/-- Layer 0 of the built tree is the final working layer. -/
theorem build_tree_getD_zero (leaves : List Bytes) :
    (build_tree hash_eth2 leaves).getD 0 [] = topLayer hash_eth2 leaves 32 := by
  rw [build_tree_eq]
  simp

/-- Layer j of the built tree, for j between 1 and 32, is the padded working
layer of round 32 - j. -/
theorem build_tree_getD (leaves : List Bytes) (j : Nat) (h1 : 1 ≤ j) (h2 : j ≤ 32) :
    (build_tree hash_eth2 leaves).getD j [] =
      padLayer hash_eth2 (32 - j) (topLayer hash_eth2 leaves (32 - j)) := by
  rw [build_tree_eq]
  match j, h1 with
  | j + 1, _ =>
      rw [List.getD_cons_succ]
      have hlen : j < ((List.range 32).reverse.map
          (fun i => padLayer hash_eth2 i (topLayer hash_eth2 leaves i))).length := by
        simp; omega
      rw [List.getD_eq_getElem _ _ hlen]
      rw [List.getElem_map, List.getElem_reverse, List.getElem_range]
      have h3 : (List.range 32).length - 1 - j = 32 - (j + 1) := by
        simp
      rw [h3]

/-- Indexing the EmptyNodeHashes table below TreeDepth gives the iterated
empty-subtree hash. -/
theorem EmptyNodeHashes_getD (i : Nat) (h : i < 32) :
    (EmptyNodeHashes hash_eth2).getD i [] = emptyNodeHash hash_eth2 i := by
  have hlen : i < (EmptyNodeHashes hash_eth2).length := by
    simp [EmptyNodeHashes, TreeDepth]
    omega
  rw [List.getD_eq_getElem _ _ hlen]
  simp [EmptyNodeHashes]

/-- XOR with one on an even number flips the low bit up. -/
theorem xor_one_even (n : Nat) (h : n % 2 = 0) : n ^^^ 1 = n + 1 := by
  apply Nat.eq_of_testBit_eq
  intro i
  match i with
  | 0 =>
      simp [Nat.testBit_zero, h, Nat.add_mod]
  | i + 1 =>
      rw [Nat.testBit_xor]
      rw [Nat.testBit_succ, Nat.testBit_succ, Nat.testBit_succ]
      have h1 : (1 : Nat) / 2 = 0 := by norm_num
      have h2 : (n + 1) / 2 = n / 2 := by omega
      rw [h1, h2]
      simp [Nat.zero_testBit]

/-- XOR with one on an odd number clears the low bit. -/
theorem xor_one_odd (n : Nat) (h : n % 2 = 1) : n ^^^ 1 = n - 1 := by
  apply Nat.eq_of_testBit_eq
  intro i
  match i with
  | 0 =>
      have h2 : (n - 1) % 2 = 0 := by omega
      simp [Nat.testBit_zero, h, h2]
      omega
  | i + 1 =>
      rw [Nat.testBit_xor]
      rw [Nat.testBit_succ, Nat.testBit_succ, Nat.testBit_succ]
      have h1 : (1 : Nat) / 2 = 0 := by norm_num
      have h2 : (n - 1) / 2 = n / 2 := by omega
      rw [h1, h2]
      simp [Nat.zero_testBit]

/-- The verifier's range-indexed fold is the recursive accumulator that
consumes proof entries head-first, halving the index. -/
theorem foldRange_eq_valueAux :
    ∀ (proof : List Bytes) (index : Nat) (value : Bytes),
      (List.range proof.length).foldl
        (fun value i =>
          if index / 2 ^ i % 2 = 1 then hash_eth2 (proof.getD i [] ++ value)
          else hash_eth2 (value ++ proof.getD i []))
        value = valueAux hash_eth2 value index proof
  | [], index, value => by simp [valueAux]
  | p :: rest, index, value => by
      rw [show (p :: rest).length = rest.length + 1 from rfl]
      rw [List.range_succ_eq_map, List.foldl_cons, List.foldl_map]
      have hfun : (fun (value : Bytes) i =>
          if index / 2 ^ (Nat.succ i) % 2 = 1 then
            hash_eth2 ((p :: rest).getD (Nat.succ i) [] ++ value)
          else hash_eth2 (value ++ (p :: rest).getD (Nat.succ i) [])) =
          (fun (value : Bytes) i =>
            if index / 2 / 2 ^ i % 2 = 1 then hash_eth2 (rest.getD i [] ++ value)
            else hash_eth2 (value ++ rest.getD i [])) := by
        funext value i
        have hd : index / 2 ^ Nat.succ i = index / 2 / 2 ^ i := by
          rw [Nat.div_div_eq_div_mul, pow_succ, Nat.mul_comm]
        rw [hd, List.getD_cons_succ]
      rw [hfun, foldRange_eq_valueAux rest (index / 2) _]
      have h0 : index / 2 ^ 0 % 2 = index % 2 := by simp
      rw [valueAux, h0, List.getD_cons_zero]

/-- On a proof of the mandated length, the verifier's accumulated value is
the recursive accumulator. -/
theorem verify_value_eq_valueAux (leaf : Bytes) (index : Nat) (proof : List Bytes)
    (h : proof.length = TreeDepth) :
    verify_value hash_eth2 leaf index proof = valueAux hash_eth2 leaf index proof := by
  unfold verify_value
  rw [← h]
  exact foldRange_eq_valueAux hash_eth2 proof index leaf

/-- One round of the climb: the node above position k >>> i is the hash of
that node and its sibling in the padded layer, combined on the side given by
the low bit. -/
theorem climb_step (leaves : List Bytes) (k i : Nat)
    (hk : k >>> i < (topLayer hash_eth2 leaves i).length) :
    k >>> (i + 1) < (topLayer hash_eth2 leaves (i + 1)).length ∧
      (topLayer hash_eth2 leaves (i + 1)).getD (k >>> (i + 1)) [] =
        (if (k >>> i) % 2 = 1 then
          hash_eth2
            ((padLayer hash_eth2 i (topLayer hash_eth2 leaves i)).getD ((k >>> i) ^^^ 1) [] ++
              (topLayer hash_eth2 leaves i).getD (k >>> i) [])
        else
          hash_eth2
            ((topLayer hash_eth2 leaves i).getD (k >>> i) [] ++
              (padLayer hash_eth2 i (topLayer hash_eth2 leaves i)).getD ((k >>> i) ^^^ 1) [])) := by
  have hs : k >>> (i + 1) = k >>> i / 2 := Nat.shiftRight_succ k i
  have he := padLayer_length_even hash_eth2 i (topLayer hash_eth2 leaves i)
  have hb := padLayer_length_bounds hash_eth2 i (topLayer hash_eth2 leaves i)
  have hTsucc := topLayer_succ_length hash_eth2 leaves i
  constructor
  · rw [hs, hTsucc]
    omega
  · rw [hs]
    show (_hash_layer hash_eth2 (padLayer hash_eth2 i (topLayer hash_eth2 leaves i))).getD
        (k >>> i / 2) [] = _
    by_cases hodd : (k >>> i) % 2 = 1
    · have hx := xor_one_odd (k >>> i) hodd
      have hjj : 2 * (k >>> i / 2) + 1 < (padLayer hash_eth2 i
          (topLayer hash_eth2 leaves i)).length := by omega
      rw [hash_layer_getD hash_eth2 _ _ hjj]
      have e0 : 2 * (k >>> i / 2) = (k >>> i) ^^^ 1 := by omega
      have e1 : 2 * (k >>> i / 2) + 1 = k >>> i := by omega
      rw [e1, e0, if_pos hodd]
      rw [padLayer_getD hash_eth2 i (k >>> i) _ hk]
    · have hev : (k >>> i) % 2 = 0 := by omega
      have hx := xor_one_even (k >>> i) hev
      have hjj : 2 * (k >>> i / 2) + 1 < (padLayer hash_eth2 i
          (topLayer hash_eth2 leaves i)).length := by omega
      rw [hash_layer_getD hash_eth2 _ _ hjj]
      have e0 : 2 * (k >>> i / 2) = k >>> i := by omega
      have e1 : 2 * (k >>> i / 2) + 1 = (k >>> i) ^^^ 1 := by omega
      rw [e1, e0, if_neg hodd]
      rw [padLayer_getD hash_eth2 i (k >>> i) _ hk]

/-- The full climb: consuming the sibling digests of levels i up to i+m-1
takes the node at position k >>> i of the working layer of round i to the
node at position k >>> (i+m) of the working layer of round i+m. -/
theorem climb (leaves : List Bytes) (k : Nat) :
    ∀ (m i : Nat), k >>> i < (topLayer hash_eth2 leaves i).length →
      valueAux hash_eth2 ((topLayer hash_eth2 leaves i).getD (k >>> i) []) (k >>> i)
        ((List.range' i m).map
          (fun j =>
            (padLayer hash_eth2 j (topLayer hash_eth2 leaves j)).getD ((k >>> j) ^^^ 1) [])) =
        (topLayer hash_eth2 leaves (i + m)).getD (k >>> (i + m)) [] := by
  intro m
  induction m with
  | zero => intro i hk; simp [valueAux]
  | succ m ih =>
      intro i hk
      rw [List.range'_succ, List.map_cons]
      obtain ⟨hlt, hval⟩ := climb_step hash_eth2 leaves k i hk
      rw [valueAux, ← hval, ← Nat.shiftRight_succ k i]
      have := ih (i + 1) hlt
      rw [show i + 1 + m = i + (m + 1) from by omega] at this
      exact this

/-- A successful calc_merkle_tree_from_leaves returns exactly the built tree. -/
theorem calc_ok_inv (leaves : List Bytes) (tree : List (List Bytes)) (hne : leaves ≠ [])
    (h : calc_merkle_tree_from_leaves hash_eth2 leaves = .ok tree) :
    tree = build_tree hash_eth2 leaves := by
  unfold calc_merkle_tree_from_leaves at h
  rw [if_neg (by simpa using hne)] at h
  exact (Except.ok.inj h).symm

/-- Building from a single leaf keeps every working layer a singleton. -/
theorem topLayer_single_length (L : Bytes) :
    ∀ i, (topLayer hash_eth2 [L] i).length = 1 := by
  intro i
  induction i with
  | zero => rfl
  | succ i ih =>
      rw [topLayer_succ_length]
      have he := padLayer_length_even hash_eth2 i (topLayer hash_eth2 [L] i)
      have hb := padLayer_length_bounds hash_eth2 i (topLayer hash_eth2 [L] i)
      omega

/-- Padding a singleton layer puts the level's empty-node hash at position 1. -/
theorem padLayer_single_getD_one (i : Nat) (L' : List Bytes) (h : L'.length = 1) :
    (padLayer hash_eth2 i L').getD 1 [] = (EmptyNodeHashes hash_eth2).getD i [] := by
  obtain ⟨a, rfl⟩ := List.length_eq_one.mp h
  simp [padLayer]

/-- The recursive accumulator only reads as many low index bits as the proof
is long: reducing the index modulo 2 to a power at least the proof length
leaves the result unchanged. -/
theorem valueAux_mod (value : Bytes) :
    ∀ (proof : List Bytes) (index n : Nat), proof.length ≤ n →
      valueAux hash_eth2 value index proof =
        valueAux hash_eth2 value (index % 2 ^ n) proof := by
  intro proof
  induction proof generalizing value with
  | nil => intro index n _; simp [valueAux]
  | cons p rest ih =>
      intro index n hlen
      obtain ⟨m, rfl⟩ : ∃ m, n = m + 1 := ⟨n - 1, by simp at hlen; omega⟩
      have hd2 : (2 : Nat) ∣ 2 ^ (m + 1) := dvd_pow_self 2 (by omega)
      have hmod : index % 2 ^ (m + 1) % 2 = index % 2 := Nat.mod_mod_of_dvd index hd2
      have hdiv : index % 2 ^ (m + 1) / 2 = index / 2 % 2 ^ m := by
        have hh := Nat.mod_mul_right_div_self index 2 (2 ^ m)
        rwa [show 2 * 2 ^ m = 2 ^ (m + 1) from by ring] at hh
      rw [valueAux, valueAux, hmod, hdiv]
      have hrest : rest.length ≤ m := by simp at hlen; omega
      exact ih _ (index / 2) m hrest

/-- Working-layer lengths for the oversized input of 2 to the 32 plus one
equal leaves: one more than a (shrinking) power of two at every round. -/
theorem topLayer_big (d : Bytes) :
    ∀ i, i ≤ 32 →
      (topLayer hash_eth2 (List.replicate (2 ^ 32 + 1) d) i).length = 2 ^ (32 - i) + 1 := by
  intro i
  induction i with
  | zero =>
      intro _
      rw [topLayer, List.length_replicate]
  | succ i ih =>
      intro hi
      have hlt : i ≤ 32 := by omega
      have hlen := ih hlt
      have he := padLayer_length_even hash_eth2 i
        (topLayer hash_eth2 (List.replicate (2 ^ 32 + 1) d) i)
      have hb := padLayer_length_bounds hash_eth2 i
        (topLayer hash_eth2 (List.replicate (2 ^ 32 + 1) d) i)
      have hsplit : 32 - i = (31 - i) + 1 := by omega
      have hpow : 2 ^ (32 - i) = 2 * 2 ^ (31 - i) := by
        rw [hsplit, pow_succ, Nat.mul_comm]
      have hgoal : 32 - (i + 1) = 31 - i := by omega
      rw [topLayer_succ_length, hgoal]
      omega

end Lemmas

section Claims

/-- Claim C1: proof round-trip. For every non-empty leaf sequence of length
at most 2 to the 32 and every index k below it, the proof whose i-th entry is
the sibling digest tree[32 - i][(k >>> i) XOR 1] read from the built tree
verifies the leaf at index k against the tree's layer-0 digest. -/
theorem C1_proof_round_trip (hash_eth2 : Bytes → Bytes) (leaves : List Bytes) (k : Nat)
    (tree : List (List Bytes)) (hne : leaves ≠ []) (hlen : leaves.length ≤ 2 ^ 32)
    (hk : k < leaves.length)
    (htree : calc_merkle_tree_from_leaves hash_eth2 leaves = .ok tree) :
    verify_merkle_proof hash_eth2 ((tree.getD 0 []).getD 0 []) (leaves.getD k []) k
      ((List.range 32).map
        (fun i => (tree.getD (32 - i) []).getD ((k >>> i) ^^^ 1) [])) = .ok true := by
  obtain rfl := calc_ok_inv hash_eth2 leaves tree hne htree
  have hmap : (List.range 32).map
      (fun i => ((build_tree hash_eth2 leaves).getD (32 - i) []).getD ((k >>> i) ^^^ 1) []) =
      (List.range' 0 32).map
        (fun j =>
          (padLayer hash_eth2 j (topLayer hash_eth2 leaves j)).getD ((k >>> j) ^^^ 1) []) := by
    rw [← List.range_eq_range']
    apply List.map_congr_left
    intro i hi
    have hi32 : i < 32 := List.mem_range.mp hi
    rw [build_tree_getD hash_eth2 leaves (32 - i) (by omega) (by omega)]
    rw [show 32 - (32 - i) = i from by omega]
  rw [hmap]
  have hplen : ((List.range' 0 32).map
      (fun j =>
        (padLayer hash_eth2 j (topLayer hash_eth2 leaves j)).getD ((k >>> j) ^^^ 1) [])).length =
      TreeDepth := by
    simp [TreeDepth]
  unfold verify_merkle_proof
  rw [if_pos hplen]
  rw [verify_value_eq_valueAux hash_eth2 _ _ _ hplen]
  have hk0 : k >>> 0 < (topLayer hash_eth2 leaves 0).length := by
    rw [Nat.shiftRight_zero]
    exact hk
  have hc := climb hash_eth2 leaves k 32 0 hk0
  rw [Nat.shiftRight_zero] at hc
  rw [show topLayer hash_eth2 leaves 0 = leaves from rfl] at hc
  rw [show (0 + 32 : Nat) = 32 from rfl] at hc
  have h32 : k >>> 32 = 0 := by
    rw [Nat.shiftRight_eq_div_pow]
    exact Nat.div_eq_of_lt (lt_of_lt_of_le hk hlen)
  rw [h32] at hc
  rw [build_tree_getD_zero]
  rw [hc]
  simp

/-- Claim C1 witness: the round trip at the concrete three-leaf tree over the
stand-in hash, at index 1. -/
theorem C1_witness :
    verify_merkle_proof wHash
      (((build_tree wHash [[0], [1], [2]]).getD 0 []).getD 0 []) [1] 1
      ((List.range 32).map
        (fun i => ((build_tree wHash [[0], [1], [2]]).getD (32 - i) []).getD
          ((1 >>> i) ^^^ 1) [])) = .ok true :=
  C1_proof_round_trip wHash [[0], [1], [2]] 1 (build_tree wHash [[0], [1], [2]])
    (by decide) (by decide) (by decide) rfl

/-- Claim C2: single-leaf case. The root of the tree built from one leaf
verifies against that leaf at index 0 with the EmptyNodeHashes table itself
as the proof. -/
theorem C2_single_leaf (hash_eth2 : Bytes → Bytes) (L : Bytes) :
    get_merkle_root hash_eth2 [L] = .ok (get_root (build_tree hash_eth2 [L])) ∧
      verify_merkle_proof hash_eth2 (get_root (build_tree hash_eth2 [L])) L 0
        (EmptyNodeHashes hash_eth2) = .ok true := by
  constructor
  · rfl
  · have hplen : (EmptyNodeHashes hash_eth2).length = TreeDepth := by
      simp [EmptyNodeHashes]
    unfold verify_merkle_proof
    rw [if_pos hplen]
    rw [verify_value_eq_valueAux hash_eth2 _ _ _ hplen]
    have hk0 : (0 : Nat) >>> 0 < (topLayer hash_eth2 [L] 0).length := by
      rw [Nat.shiftRight_zero]
      rw [show topLayer hash_eth2 [L] 0 = [L] from rfl]
      norm_num
    have hc := climb hash_eth2 [L] 0 32 0 hk0
    have hlist : (List.range' 0 32).map
        (fun j =>
          (padLayer hash_eth2 j (topLayer hash_eth2 [L] j)).getD ((0 >>> j) ^^^ 1) []) =
        EmptyNodeHashes hash_eth2 := by
      rw [EmptyNodeHashes, TreeDepth, List.range_eq_range']
      apply List.map_congr_left
      intro j hj
      have hj32 : j < 32 := by
        have := List.mem_range'_1.mp hj
        omega
      rw [Nat.zero_shiftRight, Nat.zero_xor]
      rw [padLayer_single_getD_one hash_eth2 j _ (topLayer_single_length hash_eth2 L j)]
      exact EmptyNodeHashes_getD hash_eth2 j hj32
    rw [hlist] at hc
    rw [Nat.zero_shiftRight] at hc
    rw [show topLayer hash_eth2 [L] 0 = [L] from rfl] at hc
    rw [List.getD_cons_zero] at hc
    rw [show (0 + 32 : Nat) = 32 from rfl] at hc
    rw [show get_root (build_tree hash_eth2 [L]) =
        ((build_tree hash_eth2 [L]).getD 0 []).getD 0 [] from rfl]
    rw [build_tree_getD_zero]
    rw [hc]
    simp

/-- Claim C3: constant-table correctness. EmptyNodeHashes has exactly 32
entries, entry 0 is the raw all-zero 32-byte value, and every later entry is
the hash of the previous entry concatenated with itself. -/
theorem C3_constant_table (hash_eth2 : Bytes → Bytes) :
    (EmptyNodeHashes hash_eth2).length = 32 ∧
      (EmptyNodeHashes hash_eth2).getD 0 [] = List.replicate 32 0 ∧
      ∀ i, 1 ≤ i → i < 32 →
        (EmptyNodeHashes hash_eth2).getD i [] =
          hash_eth2 ((EmptyNodeHashes hash_eth2).getD (i - 1) [] ++
            (EmptyNodeHashes hash_eth2).getD (i - 1) []) := by
  refine ⟨by simp [EmptyNodeHashes, TreeDepth], ?_, ?_⟩
  · rw [EmptyNodeHashes_getD hash_eth2 0 (by omega)]
    rfl
  · intro i h1 h2
    obtain ⟨j, rfl⟩ : ∃ j, i = j + 1 := ⟨i - 1, by omega⟩
    rw [EmptyNodeHashes_getD hash_eth2 (j + 1) h2]
    rw [show j + 1 - 1 = j from rfl]
    rw [EmptyNodeHashes_getD hash_eth2 j (by omega)]
    rfl

/-- Claim C3 witness: the recurrence at entry 5 of the table over the
stand-in hash. -/
theorem C3_witness :
    (EmptyNodeHashes wHash).getD 5 [] =
      wHash ((EmptyNodeHashes wHash).getD 4 [] ++ (EmptyNodeHashes wHash).getD 4 []) := by
  have h := (C3_constant_table wHash).2.2 5 (by decide) (by decide)
  exact h

/-- Claim C4 counterexample: on 2 to the 32 plus one leaves, the build
succeeds but layer 0 of the returned tree holds two digests, not one. -/
theorem C4_counterexample :
    calc_merkle_tree_from_leaves wHash (List.replicate (2 ^ 32 + 1) (List.replicate 32 0)) =
      .ok (build_tree wHash (List.replicate (2 ^ 32 + 1) (List.replicate 32 0))) ∧
      ((build_tree wHash (List.replicate (2 ^ 32 + 1) (List.replicate 32 0))).getD 0
        []).length = 2 := by
  constructor
  · unfold calc_merkle_tree_from_leaves
    rw [if_neg (by rw [List.length_replicate]; omega)]
  · have h := topLayer_big wHash (List.replicate 32 0) 32 (by omega)
    rw [build_tree_getD_zero, h]
    norm_num

/-- Claim C4 as amended: every tree returned by calc_merkle_tree_from_leaves
has exactly 33 layers, root-first with the leaf layer last, and when the leaf
count is at most 2 to the 32 its layer 0 contains exactly one digest. -/
theorem C4_tree_shape (hash_eth2 : Bytes → Bytes) (leaves : List Bytes)
    (tree : List (List Bytes)) (hne : leaves ≠ [])
    (htree : calc_merkle_tree_from_leaves hash_eth2 leaves = .ok tree) :
    tree.length = 33 ∧ (leaves.length ≤ 2 ^ 32 → (tree.getD 0 []).length = 1) := by
  obtain rfl := calc_ok_inv hash_eth2 leaves tree hne htree
  refine ⟨build_tree_length hash_eth2 leaves, ?_⟩
  intro hle
  rw [build_tree_getD_zero]
  have h1 := topLayer_length_pos hash_eth2 leaves (List.length_pos.mpr hne) 32
  have h2 := topLayer_length_le hash_eth2 leaves 32 0 (by simpa using hle)
  norm_num at h2
  omega

/-- Claim C4 witness: the amended shape at a concrete one-leaf tree. -/
theorem C4_witness :
    (build_tree wHash [[5]]).length = 33 ∧
      ((build_tree wHash [[5]]).getD 0 []).length = 1 :=
  ⟨(C4_tree_shape wHash [[5]] (build_tree wHash [[5]]) (by decide) rfl).1,
    (C4_tree_shape wHash [[5]] (build_tree wHash [[5]]) (by decide) rfl).2 (by decide)⟩

/-- Claim C5: leaf-layer padding permanence. The last layer of the returned
tree is the input leaves when their count is even, and the input leaves with
one trailing EmptyNodeHashes[0] appended when their count is odd. -/
theorem C5_leaf_layer (hash_eth2 : Bytes → Bytes) (leaves : List Bytes)
    (tree : List (List Bytes)) (hne : leaves ≠ [])
    (htree : calc_merkle_tree_from_leaves hash_eth2 leaves = .ok tree) :
    tree.getD 32 [] =
      if leaves.length % 2 = 0 then leaves
      else leaves ++ [(EmptyNodeHashes hash_eth2).getD 0 []] := by
  obtain rfl := calc_ok_inv hash_eth2 leaves tree hne htree
  rw [build_tree_getD hash_eth2 leaves 32 (by omega) (by omega)]
  rw [show (32 - 32 : Nat) = 0 from rfl]
  rw [show topLayer hash_eth2 leaves 0 = leaves from rfl]
  unfold padLayer
  by_cases h : leaves.length % 2 = 0
  · rw [if_neg (by omega), if_pos h]
  · rw [if_pos (by omega), if_neg h]

/-- Claim C5 witness: the odd case at a concrete one-leaf tree. -/
theorem C5_witness :
    (build_tree wHash [[7]]).getD 32 [] = [[7]] ++ [(EmptyNodeHashes wHash).getD 0 []] :=
  C5_leaf_layer wHash [[7]] (build_tree wHash [[7]]) (by decide) rfl

/-- Claim C6: index high bits are ignored. On a proof of length 32, verifying
at any index gives the same answer as at the index reduced modulo 2 to the
32, and no index makes the verifier fail. -/
theorem C6_index_high_bits (hash_eth2 : Bytes → Bytes) (root leaf : Bytes) (index : Nat)
    (proof : List Bytes) (hlen : proof.length = 32) :
    verify_merkle_proof hash_eth2 root leaf index proof =
      verify_merkle_proof hash_eth2 root leaf (index % 2 ^ 32) proof ∧
      ∃ b : Bool, verify_merkle_proof hash_eth2 root leaf index proof = .ok b := by
  have hTD : proof.length = TreeDepth := hlen
  constructor
  · unfold verify_merkle_proof
    rw [if_pos hTD, if_pos hTD]
    rw [verify_value_eq_valueAux hash_eth2 _ _ _ hTD,
      verify_value_eq_valueAux hash_eth2 _ _ _ hTD]
    rw [← valueAux_mod hash_eth2 leaf proof index 32 (by omega)]
  · unfold verify_merkle_proof
    rw [if_pos hTD]
    exact ⟨_, rfl⟩

/-- Claim C6 witness: index 5 against its reduction modulo 2 to the 32, on an
all-empty proof of length 32. -/
theorem C6_witness :
    verify_merkle_proof wHash [] [] 5 (List.replicate 32 []) =
        verify_merkle_proof wHash [] [] (5 % 2 ^ 32) (List.replicate 32 []) ∧
      ∃ b : Bool, verify_merkle_proof wHash [] [] 5 (List.replicate 32 []) = .ok b :=
  C6_index_high_bits wHash [] [] 5 (List.replicate 32 []) (by decide)

/-- Claim C7: proof-length error. The verifier fails with
InvalidProofLengthError exactly when the proof length differs from 32, and on
length 32 it always returns a boolean. -/
theorem C7_proof_length_error (hash_eth2 : Bytes → Bytes) (root leaf : Bytes) (index : Nat)
    (proof : List Bytes) :
    (verify_merkle_proof hash_eth2 root leaf index proof = .error .InvalidProofLengthError ↔
        proof.length ≠ 32) ∧
      (proof.length = 32 →
        ∃ b : Bool, verify_merkle_proof hash_eth2 root leaf index proof = .ok b) := by
  constructor
  · constructor
    · intro h hcon
      unfold verify_merkle_proof at h
      rw [if_pos (show proof.length = TreeDepth from hcon)] at h
      exact Except.noConfusion h
    · intro h
      unfold verify_merkle_proof
      rw [if_neg (show ¬proof.length = TreeDepth from fun hc => h hc)]
  · intro h
    unfold verify_merkle_proof
    rw [if_pos (show proof.length = TreeDepth from h)]
    exact ⟨_, rfl⟩

/-- Claim C7 witness: the equivalence at the empty proof. -/
theorem C7_witness :
    (verify_merkle_proof wHash [] [] 0 [] = .error .InvalidProofLengthError ↔
        ([] : List Bytes).length ≠ 32) ∧
      (([] : List Bytes).length = 32 →
        ∃ b : Bool, verify_merkle_proof wHash [] [] 0 [] = .ok b) :=
  C7_proof_length_error wHash [] [] 0 []

/-- Claim C8: empty-input rejection. Building from leaves fails with
EmptyInputError exactly on the empty leaf sequence, and building from items
fails with EmptyInputError exactly on the empty item sequence. -/
theorem C8_empty_input (hash_eth2 : Bytes → Bytes) (leaves items : List Bytes) :
    (calc_merkle_tree_from_leaves hash_eth2 leaves = .error .EmptyInputError ↔ leaves = []) ∧
      (calc_merkle_tree hash_eth2 items = .error .EmptyInputError ↔ items = []) := by
  have key : ∀ ls : List Bytes,
      (calc_merkle_tree_from_leaves hash_eth2 ls = .error .EmptyInputError ↔ ls = []) := by
    intro ls
    unfold calc_merkle_tree_from_leaves
    by_cases h : ls.length = 0
    · rw [if_pos h]
      simp [List.length_eq_zero.mp h]
    · rw [if_neg h]
      rw [List.length_eq_zero] at h
      simp [h]
  refine ⟨key leaves, ?_⟩
  unfold calc_merkle_tree
  rw [key (items.map hash_eth2)]
  simp

/-- Claim C8 witness: both rejections at the empty sequence. -/
theorem C8_witness :
    (calc_merkle_tree_from_leaves wHash [] = .error .EmptyInputError ↔
        ([] : List Bytes) = []) ∧
      (calc_merkle_tree wHash [] = .error .EmptyInputError ↔ ([] : List Bytes) = []) :=
  C8_empty_input wHash [] []

/-- Claim C9: concrete three-leaf vector. In the tree built from three
leaves, the layer one level above the leaf layer (index 31) holds exactly the
hash of the first two leaves and the hash of the third leaf with the level-0
padding digest, in that order. -/
theorem C9_three_leaf_vector (hash_eth2 : Bytes → Bytes) (l0 l1 l2 : Bytes)
    (tree : List (List Bytes))
    (htree : calc_merkle_tree_from_leaves hash_eth2 [l0, l1, l2] = .ok tree) :
    tree.getD 31 [] =
      [hash_eth2 (l0 ++ l1), hash_eth2 (l2 ++ (EmptyNodeHashes hash_eth2).getD 0 [])] := by
  obtain rfl := calc_ok_inv hash_eth2 [l0, l1, l2] tree (by simp) htree
  rw [build_tree_getD hash_eth2 [l0, l1, l2] 31 (by omega) (by omega)]
  rw [show (32 - 31 : Nat) = 1 from rfl]
  rw [show topLayer hash_eth2 [l0, l1, l2] 1 =
      _hash_layer hash_eth2 (padLayer hash_eth2 0 [l0, l1, l2]) from rfl]
  rw [show padLayer hash_eth2 0 [l0, l1, l2] =
      [l0, l1, l2, (EmptyNodeHashes hash_eth2).getD 0 []] from by
    unfold padLayer
    rw [if_pos (by norm_num)]
    rfl]
  rw [show _hash_layer hash_eth2 [l0, l1, l2, (EmptyNodeHashes hash_eth2).getD 0 []] =
      [hash_eth2 (l0 ++ l1), hash_eth2 (l2 ++ (EmptyNodeHashes hash_eth2).getD 0 [])]
      from rfl]
  unfold padLayer
  rw [if_neg (by norm_num)]

/-- Claim C9 witness: the level-31 layer at three concrete one-byte leaves. -/
theorem C9_witness :
    (build_tree wHash [[1], [2], [3]]).getD 31 [] =
      [wHash ([1] ++ [2]), wHash ([3] ++ (EmptyNodeHashes wHash).getD 0 [])] :=
  C9_three_leaf_vector wHash [1] [2] [3] (build_tree wHash [[1], [2], [3]]) rfl

/-- Claim C10: every layer of the returned tree other than layer 0 has even
length, because each round pads its working layer to even length before
hashing and stores the padded copy. -/
theorem C10_even_layers (hash_eth2 : Bytes → Bytes) (leaves : List Bytes)
    (tree : List (List Bytes)) (hne : leaves ≠ [])
    (htree : calc_merkle_tree_from_leaves hash_eth2 leaves = .ok tree) :
    ∀ j, 1 ≤ j → j ≤ 32 → (tree.getD j []).length % 2 = 0 := by
  obtain rfl := calc_ok_inv hash_eth2 leaves tree hne htree
  intro j h1 h2
  rw [build_tree_getD hash_eth2 leaves j h1 h2]
  exact padLayer_length_even hash_eth2 _ _

/-- Claim C10 witness: layer 7 of a concrete one-leaf tree has even length. -/
theorem C10_witness : ((build_tree wHash [[4]]).getD 7 []).length % 2 = 0 :=
  C10_even_layers wHash [[4]] (build_tree wHash [[4]]) (by decide) rfl 7 (by decide) (by decide)

end Claims

end MerkleSparse
